import Mathlib

/-!
Verification development for the pybogglesolver repository
(src/trie.py, src/bogglesolver.py).

Letters are modelled as `Fin 26`: the source trie stores children in a fixed
26-slot array indexed by `ord(letter) - ord('a')`, so the alphabet of the core
is exactly the lowercase letters a-z, identified here with 0-25.  In this
alphabet the letter 'q' is 16 and the letter 'u' is 20.
-/

abbrev Letter := Fin 26

abbrev BWord := List Letter

/-- The letter 'q' (the board's pseudo-letter standing for "qu"). -/
def qLetter : Letter := 16

/-- The letter 'u'. -/
def uLetter : Letter := 20

/-- Trie node, from src/trie.py: a 26-slot child array and an `_is_word` flag. -/
inductive Trie : Type where
  | node (children : Letter → Option Trie) (is_word : Bool) : Trie

/-- Child-slot array of a node (the `_children` attribute). -/
def Trie.children : Trie → Letter → Option Trie
  | .node ch _ => ch

/-- The `_is_word` attribute, also the `is_word()` method of src/trie.py. -/
def Trie.is_word : Trie → Bool
  | .node _ b => b

/-- A fresh node as built by `Trie.__init__`: 26 empty slots, not a word. -/
def Trie.empty : Trie := .node (fun _ => none) false

/-- The `get_child` method of src/trie.py (line 34): `self._children[ord(letter) - ORD_A]`. -/
def Trie.get_child (t : Trie) (l : Letter) : Option Trie := t.children l

/-- The `contains` method of src/trie.py (line 26). -/
def Trie.contains (t : Trie) (l : Letter) : Bool := (t.children l).isSome

/-- The `has_children` method of src/trie.py (line 38): `any(self._children)`. -/
def Trie.has_children (t : Trie) : Bool := decide (∃ l, (t.children l).isSome)

/-- The `insert` method of src/trie.py (lines 11-23).  The source walks the
word letter by letter, moving to the existing child when there is one and
creating a fresh node otherwise, and finally sets `_is_word` on the node it
stops at; this functional translation rebuilds the traversed path. -/
def Trie.insert : Trie → BWord → Trie
  | t, [] => .node t.children true
  | t, l :: ls =>
      .node (Function.update t.children l
        (some (((t.children l).getD Trie.empty).insert ls))) t.is_word

/-- Walking the tree letter by letter from a node via `get_child`, as in the
spec's trie round-trip property and in the traversal of `solve`. -/
def Trie.walk : Trie → BWord → Option Trie
  | t, [] => some t
  | t, l :: ls => (t.get_child l).bind (fun c => c.walk ls)

/-- A word is recognized when walking it from the root ends at a node whose
`_is_word` flag is set. -/
def Trie.containsWord (t : Trie) (w : BWord) : Bool :=
  match t.walk w with
  | none => false
  | some n => n.is_word

/-- Building a trie by inserting a list of words into an empty trie, the
setup phase of the engine. -/
def buildTrie (ws : List BWord) : Trie := ws.foldl Trie.insert Trie.empty

/-- The word-filtering step of `BoggleSolver._create_dict_trie`
(bogglesolver.py lines 211-230): `none` when the word is skipped, otherwise
the word as it is actually inserted into the trie.  Too-long and too-short
words are skipped (the length test uses the original length, before any
"qu" collapsing); a word starting with 'q' whose second letter is not 'u' is
skipped, and an accepted q-word has its leading "qu" collapsed to the single
letter 'q'.  The capital-letter test of line 218 cannot fire here because the
alphabet `Fin 26` holds only the lowercase letters.  On the one-letter word
"q" the Python code would fail on `word[1]`; that case is unreachable in the
engine because construction asserts `min_letters > 1`, and is modelled as a
skip. -/
def filter_word (min_letters max_letters : Nat) (word : BWord) : Option BWord :=
  if max_letters < word.length ∨ word.length < min_letters then none
  else
    match word with
    | [] => some []
    | l :: rest =>
        if l = qLetter then
          match rest with
          | [] => none
          | l2 :: rest2 => if l2 = uLetter then some (qLetter :: rest2) else none
        else some (l :: rest)

/-- The `_create_dict_trie` method (bogglesolver.py lines 188-236): fold the
word sequence through the filter, inserting each accepted word into a trie
rooted at a fresh node.  File decompression and reading are the external
word-source collaborator; the core consumes a list of words.  The word count
returned by the source is not modelled (no claim mentions it). -/
def create_dict_trie (min_letters max_letters : Nat) (words : List BWord) : Trie :=
  words.foldl (fun root w =>
    match filter_word min_letters max_letters w with
    | none => root
    | some w2 => root.insert w2) Trie.empty

/-- The neighbor list of the cell at column x, row y, exactly as assembled by
the loop body of `_create_adjacency_matrix` (bogglesolver.py lines 243-288),
in the same append order (upper-left, above, upper-right, left, right,
lower-left, below, lower-right).  The Python code works with ints and guards
`cell_y = y-1` with `cell_y >= 0`; here the guard becomes `1 ≤ y` and `y-1`
is the (then safe) Nat subtraction, and likewise for x. -/
def adjRow (xlim ylim x y : Nat) : List Nat :=
  (if 1 ≤ y then
    (if 1 ≤ x then [(y-1)*xlim + (x-1)] else []) ++
    [(y-1)*xlim + x] ++
    (if x+1 < xlim then [(y-1)*xlim + (x+1)] else [])
  else []) ++
  ((if 1 ≤ x then [y*xlim + (x-1)] else []) ++
  ((if x+1 < xlim then [y*xlim + (x+1)] else []) ++
  (if y+1 < ylim then
    (if 1 ≤ x then [(y+1)*xlim + (x-1)] else []) ++
    [(y+1)*xlim + x] ++
    (if x+1 < xlim then [(y+1)*xlim + (x+1)] else [])
  else [])))

/-- The `_create_adjacency_matrix` static method (bogglesolver.py lines
239-290).  The source preallocates `ylim*xlim` slots and, for every y < ylim
and x < xlim, stores the neighbor list of cell `y*xlim + x` at index
`y*xlim + x`.  Those indices enumerate `0 .. ylim*xlim - 1` exactly once, and
every index i decomposes uniquely as i = (i / xlim)*xlim + (i % xlim) with
i % xlim < xlim, so the resulting table maps each index i to the neighbor
list of the cell at column i % xlim, row i / xlim, which is what this
definition builds directly. -/
def create_adjacency_matrix (xlim ylim : Nat) : List (List Nat) :=
  (List.range (ylim * xlim)).map (fun i => adjRow xlim ylim (i % xlim) (i / xlim))

/-- The solver engine state (the attributes set by `BoggleSolver.__init__`,
bogglesolver.py lines 19-52). -/
structure BoggleSolver where
  xlen : Nat
  ylen : Nat
  board_size : Nat
  min_letters : Nat
  max_letters : Nat
  adjacency : List (List Nat)
  trie : Option Trie

/-- `BoggleSolver.__init__` (bogglesolver.py lines 19-52).  The Python `None`
defaults for xlen, ylen and max_letters are modelled by `Option` arguments
(min_letters defaults to 3 in the source and is passed explicitly here); a
failing `assert` is modelled as `none`. -/
def BoggleSolver.init (xlen0 ylen0 maxLetters0 : Option Nat) (min_letters : Nat) :
    Option BoggleSolver :=
  let xlen := xlen0.getD 4
  let ylen := ylen0.getD 4
  if 1 < xlen ∧ 1 < ylen then
    let board_size := xlen * ylen
    let max_letters := maxLetters0.getD board_size
    if 1 < min_letters ∧ max_letters ≤ board_size ∧ min_letters ≤ max_letters then
      some { xlen := xlen, ylen := ylen, board_size := board_size,
             min_letters := min_letters, max_letters := max_letters,
             adjacency := create_adjacency_matrix xlen ylen, trie := none }
    else none
  else none

/-- `load_dictionary` / `_create_dict_trie` net effect on the engine: the
built trie is stored in `self.trie` (bogglesolver.py line 235).  The word
list stands for the lines of the words file (external collaborator). -/
def BoggleSolver.load_dictionary (slv : BoggleSolver) (words : List BWord) : BoggleSolver :=
  { slv with trie := some (create_dict_trie slv.min_letters slv.max_letters words) }

/-- One entry of the work queue of `solve` (bogglesolver.py line 106): the
tuple (cell index, prefix string so far, trie node reference, visited cell
list).  The node is an `Option` because line 106 seeds `trie.get_child(c)`
without a None check.  The field `pfx` is the source's prefix string. -/
structure PathState where
  sq : Nat
  pfx : BWord
  node : Option Trie
  seen : List Nat

/-- Outcome of a `solve` call.  `errNotLoaded` and `errInvalidBoard` are the
two `return None` error paths (lines 90-96, distinguished by their printed
messages); `crash` is an uncaught Python exception (AttributeError on line
109 when a popped state carries a None node); `fuelOut` is an artifact of
the fuel-bounded loop model and is never produced when the fuel bound
exceeds the number of queue pops; `ok` is a normal return of the word set. -/
inductive SolveResult where
  | errNotLoaded : SolveResult
  | errInvalidBoard : SolveResult
  | crash : SolveResult
  | fuelOut : SolveResult
  | ok : Finset BWord → SolveResult
deriving DecidableEq

/-- Output respelling of a found word (bogglesolver.py lines 119-124): a
word whose matched path starts at a 'q' cell gets its leading 'q' replaced
by "qu"; every other word is emitted verbatim.  The source indexes s[0], so
the empty case is unreachable (prefixes are nonempty); it is mapped to
itself. -/
def rehydrate : BWord → BWord
  | [] => []
  | a :: rest => if a = qLetter then qLetter :: uLetter :: rest else a :: rest

/-- The body of the inner `for cur_sq in adjs[parent_sq]` loop of `solve`
(bogglesolver.py lines 110-124), acting on the accumulator (new queue
entries, word set): skip a neighbor already in the visited list, prune when
the current trie node has no child for the neighbor's letter, otherwise
enqueue the extended path state and, when the child node is a word node, add
the rehydrated word to the result set. -/
def stepNeighbor (board : List Letter) (pnode : Trie) (pfx : BWord) (seen : List Nat)
    (acc : List PathState × Finset BWord) (cur_sq : Nat) : List PathState × Finset BWord :=
  if cur_sq ∈ seen then acc
  else
    match pnode.get_child (board.getD cur_sq 0) with
    | none => acc
    | some cur_node =>
        if cur_node.is_word then
          (acc.1 ++ [⟨cur_sq, pfx ++ [board.getD cur_sq 0], some cur_node, seen ++ [cur_sq]⟩],
           insert (rehydrate (pfx ++ [board.getD cur_sq 0])) acc.2)
        else
          (acc.1 ++ [⟨cur_sq, pfx ++ [board.getD cur_sq 0], some cur_node, seen ++ [cur_sq]⟩],
           acc.2)

/-- Processing of one popped queue state: the full neighbor loop.  The source
reads `adjs[parent_sq]` and `board[cur_sq]` by direct indexing; adjacency
table entries are always in range (proved below), so the `getD` defaults are
never read. -/
def stepState (board : List Letter) (adjs : List (List Nat)) (parent_sq : Nat)
    (pfx : BWord) (pnode : Trie) (seen : List Nat) (words : Finset BWord) :
    List PathState × Finset BWord :=
  (adjs.getD parent_sq []).foldl (stepNeighbor board pnode pfx seen) ([], words)

/-- The `while q:` loop of `solve` (bogglesolver.py lines 107-124), with an
explicit fuel bound on the number of pops.  `q.pop(0)` pops the front and
new states are appended at the back (FIFO).  Popping a state whose node is
None is the line 109 `pnode.get_child` attribute access on None: an
AttributeError, modelled as `crash`.  The real loop always terminates, so
any fuel at least the number of pops yields its result; `fuelOut` only
signals insufficient fuel. -/
def drainQueue (board : List Letter) (adjs : List (List Nat)) :
    Nat → List PathState → Finset BWord → SolveResult
  | _, [], words => .ok words
  | 0, _ :: _, _ => .fuelOut
  | fuel + 1, st :: rest, words =>
      match st.node with
      | none => .crash
      | some pnode =>
          drainQueue board adjs fuel
            (rest ++ (stepState board adjs st.sq st.pfx pnode st.seen words).1)
            (stepState board adjs st.sq st.pfx pnode st.seen words).2

/-- The outer `for init_sq in xrange(len(adjs))` loop of `solve`
(bogglesolver.py lines 104-106): seed one path state per initial cell (with
no None check on `trie.get_child(c)`: line 106) and drain the queue, the
word set accumulating across initial cells. -/
def solveCells (board : List Letter) (adjs : List (List Nat)) (t : Trie) (fuel : Nat) :
    List Nat → Finset BWord → SolveResult
  | [], words => .ok words
  | i :: rest, words =>
      match drainQueue board adjs fuel
        [⟨i, [board.getD i 0], t.get_child (board.getD i 0), [i]⟩] words with
      | .ok words2 => solveCells board adjs t fuel rest words2
      | r => r

/-- Fuel bound used by the `solve` model: far larger than the number of queue
pops any run can perform (every queued state has a duplicate-free visited
list over `board_size` cells and at most 8 children per pop). -/
def BoggleSolver.solveFuel (slv : BoggleSolver) : Nat :=
  (slv.board_size + 9) ^ (slv.board_size + 9)

/-- The `solve` method (bogglesolver.py lines 77-126): the dictionary-loaded
check (line 90), the board-length check (line 94), then the seeded queue
search over all initial cells starting from an empty word set. -/
def BoggleSolver.solve (slv : BoggleSolver) (grid : List Letter) : SolveResult :=
  match slv.trie with
  | none => .errNotLoaded
  | some t =>
      if grid.length ≠ slv.board_size then .errInvalidBoard
      else solveCells grid slv.adjacency t slv.solveFuel
        (List.range slv.adjacency.length) ∅

/-- A `solve` call as a state transformer.  The method body of `solve` never
assigns to any attribute of `self` (bogglesolver.py lines 77-126 only read
`self.trie`, `self.board_size`, `self.adjacency`), so the engine state after
the call is the state before it; this wrapper makes that explicit. -/
def BoggleSolver.solveCall (slv : BoggleSolver) (grid : List Letter) :
    SolveResult × BoggleSolver :=
  (slv.solve grid, slv)

/-- The inner per-offset walk of `find_substrings` (bogglesolver.py lines
170-183).  `letters` is the written portion `letters[:count]` of the source's
fixed buffer `[None] * max_letters` and `count` the write index; writing at
an index `count ≥ max_letters` is the source's out-of-bounds buffer write
(an IndexError), modelled as `none`.  The walk breaks on a missing child
(keeping the set so far) and on a childless node (after recording a word
node). -/
def innerScan (maxL : Nat) : Trie → List Letter → BWord → Nat → Finset BWord →
    Option (Finset BWord)
  | _, [], _, _, found => some found
  | cur, l :: rest, letters, count, found =>
      if maxL ≤ count then none
      else
        match cur.get_child l with
        | none => some found
        | some c =>
            let found2 := if c.is_word then insert (letters ++ [l]) found else found
            if c.has_children then innerScan maxL c rest (letters ++ [l]) (count + 1) found2
            else some found2

/-- The outer `for start in xrange(len(string))` loop of `find_substrings`:
one fresh walk per starting offset, the found set shared across offsets, an
IndexError anywhere aborting the call. -/
def scanStarts (t : Trie) (maxL : Nat) (s : List Letter) :
    List Nat → Finset BWord → Option (Finset BWord)
  | [], found => some found
  | start :: rest, found =>
      match innerScan maxL t (s.drop start) [] 0 found with
      | none => none
      | some found2 => scanStarts t maxL s rest found2

/-- The `find_substrings` method (bogglesolver.py lines 154-185).  `none`
models an uncaught exception: an IndexError on the letters buffer, or (when
the dictionary was never loaded and the string is nonempty) the
AttributeError from `cur.get_child` with `cur = self.trie = None`. -/
def BoggleSolver.find_substrings (slv : BoggleSolver) (s : List Letter) :
    Option (Finset BWord) :=
  match slv.trie with
  | none => if s.length = 0 then some ∅ else none
  | some t => scanStarts t slv.max_letters s (List.range s.length) ∅

/-- Invariant carried by every queue entry of `solve` with respect to board,
adjacency table and dictionary trie root t: a nonempty, duplicate-free
visited list whose consecutive cells are adjacent, whose spelled letters are
the prefix, whose last cell is the state's cell, and whose prefix leads from
the trie root to the state's node (when that node is not None). -/
def GoodState (board : List Letter) (adjs : List (List Nat)) (t : Trie)
    (st : PathState) : Prop :=
  st.seen ≠ [] ∧ st.seen.Nodup ∧
  st.seen.Chain' (fun a b => b ∈ adjs.getD a []) ∧
  st.pfx = st.seen.map (fun i => board.getD i 0) ∧
  st.seen.getLast? = some st.sq ∧
  (∀ n, st.node = some n → t.walk st.pfx = some n)

/-- Every word put into the result set of `solve` is the rehydration of a
trie-recognized word spelled by a nonempty simple path of adjacent cells. -/
def GoodWord (board : List Letter) (adjs : List (List Nat)) (t : Trie)
    (w : BWord) : Prop :=
  ∃ p : List Nat, p ≠ [] ∧ p.Nodup ∧
    p.Chain' (fun a b => b ∈ adjs.getD a []) ∧
    t.containsWord (p.map (fun i => board.getD i 0)) = true ∧
    w = rehydrate (p.map (fun i => board.getD i 0))

/-- Concrete instance: dictionary with the single word "aaa". -/
def wordsA : List BWord := [[0, 0, 0]]

/-- A 2x2 engine with the "aaa" dictionary loaded (min 3, max 4 letters). -/
def slvA : BoggleSolver :=
  { xlen := 2, ylen := 2, board_size := 4, min_letters := 3, max_letters := 4,
    adjacency := create_adjacency_matrix 2 2, trie := some (create_dict_trie 3 4 wordsA) }

/-- The 2x2 grid "aaaa". -/
def gridA : List Letter := [0, 0, 0, 0]

/-- Concrete instance: dictionary with the words "quad", "adq", "daa"
(as letter lists; "quad" is stored with its leading "qu" collapsed). -/
def wordsQ : List BWord := [[16, 20, 0, 3], [0, 3, 16], [3, 0, 0]]

/-- A 2x2 engine with the q-word dictionary loaded. -/
def slvQ : BoggleSolver :=
  { xlen := 2, ylen := 2, board_size := 4, min_letters := 3, max_letters := 4,
    adjacency := create_adjacency_matrix 2 2, trie := some (create_dict_trie 3 4 wordsQ) }

/-- The 2x2 grid "qadd" (cell 0 is the pseudo-letter 'q'). -/
def gridQ : List Letter := [16, 0, 3, 3]

/-- Concrete instance: dictionary with the single word "cab". -/
def wordsC : List BWord := [[2, 0, 1]]

/-- A 2x2 engine with the "cab" dictionary loaded: the trie root has a child
only for 'c'. -/
def slvC : BoggleSolver :=
  { xlen := 2, ylen := 2, board_size := 4, min_letters := 3, max_letters := 4,
    adjacency := create_adjacency_matrix 2 2, trie := some (create_dict_trie 3 4 wordsC) }

/-- The 2x2 grid "cabx": the letters 'a', 'b', 'x' have no child at the trie
root of `slvC`. -/
def gridC : List Letter := [2, 0, 1, 23]

/-- A 4x4 engine before any dictionary load (self.trie is None). -/
def slvNone : BoggleSolver :=
  { xlen := 4, ylen := 4, board_size := 16, min_letters := 3, max_letters := 16,
    adjacency := create_adjacency_matrix 4 4, trie := none }

/-- A 4x4 engine with a loaded dictionary, for the invalid-board scenario. -/
def slv4 : BoggleSolver :=
  { xlen := 4, ylen := 4, board_size := 16, min_letters := 3, max_letters := 16,
    adjacency := create_adjacency_matrix 4 4, trie := some (create_dict_trie 3 16 wordsA) }

/-- A length-15 grid string, invalid on a 16-cell board. -/
def grid15 : List Letter := List.replicate 15 0

@[simp] theorem Trie.children_node (ch : Letter → Option Trie) (b : Bool) :
    (Trie.node ch b).children = ch := rfl

@[simp] theorem Trie.is_word_node (ch : Letter → Option Trie) (b : Bool) :
    (Trie.node ch b).is_word = b := rfl

@[simp] theorem Trie.walk_nil (t : Trie) : t.walk [] = some t := rfl

theorem Trie.walk_cons (t : Trie) (l : Letter) (ls : BWord) :
    t.walk (l :: ls) = (t.get_child l).bind (fun c => c.walk ls) := rfl

theorem Trie.walk_append (t : Trie) (p q : BWord) :
    t.walk (p ++ q) = (t.walk p).bind (fun n => n.walk q) := by
  induction p generalizing t with
  | nil => simp
  | cons l ls ih =>
      simp only [List.cons_append, Trie.walk_cons]
      cases t.get_child l with
      | none => rfl
      | some c => simpa using ih c

@[simp] theorem Trie.walk_empty_cons (l : Letter) (ls : BWord) :
    Trie.empty.walk (l :: ls) = none := rfl

theorem Trie.walk_empty_eq_some {p : BWord} {n : Trie} (h : Trie.empty.walk p = some n) :
    p = [] := by
  cases p with
  | nil => rfl
  | cons l ls => simp [Trie.walk_empty_cons] at h

@[simp] theorem Trie.containsWord_empty (w : BWord) :
    Trie.empty.containsWord w = false := by
  cases w with
  | nil => rfl
  | cons l ls => rfl

theorem Trie.get_child_insert_cons (t : Trie) (l : Letter) (ls : BWord) (a : Letter) :
    (t.insert (l :: ls)).get_child a =
      if a = l then some (((t.children l).getD Trie.empty).insert ls)
      else t.get_child a := by
  simp [Trie.insert, Trie.get_child, Function.update_apply]

/-- After inserting w, walking along w reaches a node whose flag is set. -/
theorem Trie.walk_insert_self (w : BWord) :
    ∀ t : Trie, ∃ n, (t.insert w).walk w = some n ∧ n.is_word = true := by
  induction w with
  | nil =>
      intro t
      exact ⟨.node t.children true, rfl, rfl⟩
  | cons l ls ih =>
      intro t
      obtain ⟨n, hwalk, hword⟩ := ih ((t.children l).getD Trie.empty)
      refine ⟨n, ?_, hword⟩
      rw [Trie.walk_cons, Trie.get_child_insert_cons]
      simp [hwalk]

theorem Trie.containsWord_nil (t : Trie) : t.containsWord [] = t.is_word := rfl

theorem Trie.containsWord_cons (t : Trie) (a : Letter) (as : BWord) :
    t.containsWord (a :: as) =
      ((t.get_child a).map (fun c => c.containsWord as)).getD false := by
  simp only [Trie.containsWord, Trie.walk_cons]
  cases t.get_child a with
  | none => rfl
  | some c => rfl

theorem Trie.containsWord_insert (v : BWord) :
    ∀ (t : Trie) (w : BWord),
      ((t.insert v).containsWord w = true) ↔ (w = v ∨ t.containsWord w = true) := by
  induction v with
  | nil =>
      intro t w
      cases w with
      | nil => simp [Trie.containsWord_nil, Trie.insert]
      | cons a as =>
          simp only [Trie.containsWord_cons, Trie.insert, Trie.get_child]
          simp
  | cons l ls ih =>
      intro t w
      cases w with
      | nil => simp [Trie.containsWord_nil, Trie.insert]
      | cons a as =>
          rw [Trie.containsWord_cons, Trie.containsWord_cons, Trie.get_child_insert_cons]
          by_cases hal : a = l
          · subst hal
            rw [if_pos rfl]
            cases hch : t.get_child a with
            | none =>
                have hch' : t.children a = none := hch
                simp only [hch', Option.getD_none, Option.map_some', Option.getD_some,
                  Option.map_none']
                rw [ih Trie.empty as]
                simp [List.cons.injEq]
            | some c0 =>
                have hch' : t.children a = some c0 := hch
                simp only [hch', Option.getD_some, Option.map_some']
                rw [ih c0 as]
                simp [List.cons.injEq]
          · rw [if_neg hal]
            simp [List.cons.injEq, hal]

theorem Trie.containsWord_foldl (ws : List BWord) :
    ∀ (t : Trie) (w : BWord),
      ((ws.foldl Trie.insert t).containsWord w = true) ↔
        (w ∈ ws ∨ t.containsWord w = true) := by
  induction ws with
  | nil => intro t w; simp
  | cons v vs ih =>
      intro t w
      simp only [List.foldl_cons, List.mem_cons]
      rw [ih, Trie.containsWord_insert]
      tauto

/-- Membership in a trie built from a word list is exactly membership in the list. -/
theorem Trie.containsWord_buildTrie (ws : List BWord) (w : BWord) :
    ((buildTrie ws).containsWord w = true) ↔ w ∈ ws := by
  rw [buildTrie, Trie.containsWord_foldl]
  simp

theorem Trie.walk_insert_some (w : BWord) :
    ∀ (t : Trie) (p : BWord) (n : Trie), (t.insert w).walk p = some n →
      (∃ m, t.walk p = some m) ∨ (∃ r, p ++ r = w) := by
  induction w with
  | nil =>
      intro t p n h
      cases p with
      | nil => exact Or.inl ⟨t, rfl⟩
      | cons a as =>
          left
          simp only [Trie.insert, Trie.walk_cons, Trie.get_child] at h ⊢
          simp only [Trie.children_node] at h
          exact ⟨n, h⟩
  | cons l ls ih =>
      intro t p n h
      cases p with
      | nil => exact Or.inl ⟨t, rfl⟩
      | cons a as =>
          rw [Trie.walk_cons, Trie.get_child_insert_cons] at h
          by_cases hal : a = l
          · subst hal
            rw [if_pos rfl] at h
            have h2 : (((t.children a).getD Trie.empty).insert ls).walk as = some n := h
            rcases ih ((t.children a).getD Trie.empty) as n h2 with ⟨m, hm⟩ | ⟨r, hr⟩
            · cases hch : t.children a with
              | none =>
                  rw [hch, Option.getD_none] at hm
                  have : as = [] := Trie.walk_empty_eq_some hm
                  subst this
                  exact Or.inr ⟨ls, rfl⟩
              | some c0 =>
                  rw [hch, Option.getD_some] at hm
                  exact Or.inl ⟨m, by simp [Trie.walk_cons, Trie.get_child, hch, hm]⟩
            · exact Or.inr ⟨r, by simp [hr]⟩
          · rw [if_neg hal] at h
            exact Or.inl ⟨n, by simpa [Trie.walk_cons] using h⟩

theorem Trie.walk_foldl_some (ws : List BWord) :
    ∀ (t : Trie) (p : BWord) (n : Trie), ((ws.foldl Trie.insert t).walk p = some n) →
      (∃ m, t.walk p = some m) ∨ (∃ w ∈ ws, ∃ r, p ++ r = w) := by
  induction ws with
  | nil => intro t p n h; exact Or.inl ⟨n, h⟩
  | cons v vs ih =>
      intro t p n h
      simp only [List.foldl_cons] at h
      rcases ih (t.insert v) p n h with ⟨m, hm⟩ | ⟨w, hw, r, hr⟩
      · rcases Trie.walk_insert_some v t p m hm with h2 | ⟨r, hr⟩
        · exact Or.inl h2
        · exact Or.inr ⟨v, by simp, r, hr⟩
      · exact Or.inr ⟨w, by simp [hw], r, hr⟩

/-- In a trie built from a word list, every node lies on the path of a stored
word (or is the root). -/
theorem Trie.walk_buildTrie_some (ws : List BWord) (p : BWord) (n : Trie)
    (h : (buildTrie ws).walk p = some n) :
    p = [] ∨ ∃ w ∈ ws, ∃ r, p ++ r = w := by
  rcases Trie.walk_foldl_some ws Trie.empty p n h with ⟨m, hm⟩ | h2
  · exact Or.inl (Trie.walk_empty_eq_some hm)
  · exact Or.inr h2

theorem Trie.has_children_iff (t : Trie) :
    t.has_children = true ↔ ∃ l c, t.children l = some c := by
  simp [Trie.has_children, Option.isSome_iff_exists]

theorem Trie.insert_insert_self (w : BWord) :
    ∀ t : Trie, (t.insert w).insert w = t.insert w := by
  induction w with
  | nil => intro t; rfl
  | cons l ls ih =>
      intro t
      simp only [Trie.insert, Trie.children_node, Trie.is_word_node, Function.update_same,
        Option.getD_some, Function.update_idem]
      rw [ih]

theorem filter_word_none_qnotu (minL maxL : Nat) (c : Letter) (r : BWord)
    (hc : c ≠ uLetter) : filter_word minL maxL (qLetter :: c :: r) = none := by
  unfold filter_word
  split
  · rfl
  · simp [hc]

theorem filter_word_qu (minL maxL : Nat) (r : BWord) (w2 : BWord)
    (h : filter_word minL maxL (qLetter :: uLetter :: r) = some w2) :
    w2 = qLetter :: r := by
  unfold filter_word at h
  split at h
  · exact absurd h (by simp)
  · simp at h
    exact h.symm

theorem filter_word_some (minL maxL : Nat) (w w2 : BWord)
    (h : filter_word minL maxL w = some w2) :
    minL ≤ w.length ∧ w.length ≤ maxL ∧
      ((∃ r, w = qLetter :: uLetter :: r ∧ w2 = qLetter :: r) ∨
       (w2 = w ∧ w2.head? ≠ some qLetter)) := by
  unfold filter_word at h
  split at h
  · exact absurd h (by simp)
  · rename_i hlen
    refine ⟨by omega, by omega, ?_⟩
    cases w with
    | nil =>
        simp only [Option.some.injEq] at h
        refine Or.inr ⟨h.symm, ?_⟩
        rw [← h]
        simp
    | cons l rest =>
        by_cases hl : l = qLetter
        · subst hl
          cases rest with
          | nil => simp at h
          | cons l2 rest2 =>
              by_cases hl2 : l2 = uLetter
              · subst hl2
                simp at h
                exact Or.inl ⟨rest2, rfl, by simp [h]⟩
              · simp [hl2] at h
        · simp only [if_neg hl, Option.some.injEq] at h
          refine Or.inr ⟨h.symm, ?_⟩
          rw [← h]
          simp [hl]

theorem foldl_filter_insert (minL maxL : Nat) (ws : List BWord) : ∀ t : Trie,
    ws.foldl (fun root w =>
        match filter_word minL maxL w with
        | none => root
        | some w2 => root.insert w2) t
      = (ws.filterMap (filter_word minL maxL)).foldl Trie.insert t := by
  induction ws with
  | nil => intro t; rfl
  | cons w ws ih =>
      intro t
      simp only [List.foldl_cons, List.filterMap_cons]
      cases h : filter_word minL maxL w <;> simp [h, ih]

theorem create_dict_trie_eq_buildTrie (minL maxL : Nat) (ws : List BWord) :
    create_dict_trie minL maxL ws = buildTrie (ws.filterMap (filter_word minL maxL)) :=
  foldl_filter_insert minL maxL ws Trie.empty

theorem containsWord_create_dict_trie (minL maxL : Nat) (ws : List BWord) (w : BWord) :
    (((create_dict_trie minL maxL ws).containsWord w) = true) ↔
      ∃ w0 ∈ ws, filter_word minL maxL w0 = some w := by
  rw [create_dict_trie_eq_buildTrie, Trie.containsWord_buildTrie, List.mem_filterMap]

theorem rehydrate_q (r : BWord) :
    rehydrate (qLetter :: r) = qLetter :: uLetter :: r := by
  simp [rehydrate]

theorem rehydrate_of_head_ne (s : BWord) (h : s.head? ≠ some qLetter) :
    rehydrate s = s := by
  cases s with
  | nil => rfl
  | cons a r =>
      have ha : a ≠ qLetter := by simpa using h
      simp [rehydrate, ha]

theorem rehydrate_head_q (s : BWord) (r : BWord) (h : rehydrate s = qLetter :: r) :
    ∃ r2, r = uLetter :: r2 := by
  cases s with
  | nil => simp [rehydrate] at h
  | cons a rest =>
      by_cases ha : a = qLetter
      · subst ha
        rw [rehydrate_q] at h
        injection h with h1 h2
        exact ⟨rest, h2.symm⟩
      · rw [rehydrate_of_head_ne (a :: rest) (by simpa using ha)] at h
        injection h with h1 h2
        exact absurd h1 ha

theorem index_lt (xlim ylim cx cy : Nat) (hcx : cx < xlim) (hcy : cy < ylim) :
    cy * xlim + cx < xlim * ylim := by
  calc cy * xlim + cx < cy * xlim + xlim := by omega
    _ = (cy + 1) * xlim := by ring
    _ ≤ ylim * xlim := Nat.mul_le_mul_right xlim hcy
    _ = xlim * ylim := Nat.mul_comm ylim xlim

theorem index_inj (n x1 x2 y1 y2 : Nat) (h1 : x1 < n) (h2 : x2 < n) :
    y1 * n + x1 = y2 * n + x2 ↔ y1 = y2 ∧ x1 = x2 := by
  constructor
  · intro h
    have hn : 0 < n := by omega
    have hx : x1 = x2 := by
      have hm : (n * y1 + x1) % n = (n * y2 + x2) % n := by
        rw [Nat.mul_comm n y1, Nat.mul_comm n y2, h]
      rwa [Nat.mul_add_mod, Nat.mul_add_mod, Nat.mod_eq_of_lt h1, Nat.mod_eq_of_lt h2] at hm
    have hy : y1 * n = y2 * n := by omega
    exact ⟨Nat.eq_of_mul_eq_mul_right hn hy, hx⟩
  · rintro ⟨rfl, rfl⟩
    rfl

theorem index_ne (n x1 x2 y1 y2 : Nat) (h1 : x1 < n) (h2 : x2 < n)
    (h : ¬(x1 = x2 ∧ y1 = y2)) : y1 * n + x1 ≠ y2 * n + x2 := by
  intro he
  rcases (index_inj n x1 x2 y1 y2 h1 h2).mp he with ⟨hy, hx⟩
  exact h ⟨hx, hy⟩

theorem cell_mod (xlim x y : Nat) (hx : x < xlim) : (y * xlim + x) % xlim = x := by
  rw [Nat.mul_comm y xlim, Nat.mul_add_mod, Nat.mod_eq_of_lt hx]

theorem cell_div (xlim x y : Nat) (hx : x < xlim) : (y * xlim + x) / xlim = y := by
  have hn : 0 < xlim := by omega
  have h2 : y * xlim + x = x + xlim * y := by ring
  rw [h2, Nat.add_mul_div_left x y hn, Nat.div_eq_of_lt hx, Nat.zero_add]

theorem mem_ite_list (c : Prop) [Decidable c] (l : List Nat) (j : Nat) :
    (j ∈ if c then l else []) ↔ c ∧ j ∈ l := by
  split <;> rename_i h <;> simp [h]

theorem mem_adjRow (xlim ylim x y : Nat) (hx : x < xlim) (hy : y < ylim) (j : Nat) :
    j ∈ adjRow xlim ylim x y ↔
      ∃ cx cy, cx < xlim ∧ cy < ylim ∧ j = cy * xlim + cx ∧
        ¬(cx = x ∧ cy = y) ∧ x ≤ cx + 1 ∧ cx ≤ x + 1 ∧ y ≤ cy + 1 ∧ cy ≤ y + 1 := by
  unfold adjRow
  simp only [List.mem_append, mem_ite_list, List.mem_singleton, List.mem_cons,
    List.not_mem_nil, or_false]
  constructor
  · intro h
    rcases h with ⟨hy1, (⟨hx1, rfl⟩ | rfl) | ⟨hx2, rfl⟩⟩ |
      ⟨hx1, rfl⟩ | ⟨hx2, rfl⟩ | ⟨hy2, (⟨hx1, rfl⟩ | rfl) | ⟨hx2, rfl⟩⟩
    · exact ⟨x-1, y-1, by omega, by omega, rfl, by omega, by omega, by omega, by omega, by omega⟩
    · exact ⟨x, y-1, by omega, by omega, rfl, by omega, by omega, by omega, by omega, by omega⟩
    · exact ⟨x+1, y-1, by omega, by omega, rfl, by omega, by omega, by omega, by omega, by omega⟩
    · exact ⟨x-1, y, by omega, by omega, rfl, by omega, by omega, by omega, by omega, by omega⟩
    · exact ⟨x+1, y, by omega, by omega, rfl, by omega, by omega, by omega, by omega, by omega⟩
    · exact ⟨x-1, y+1, by omega, by omega, rfl, by omega, by omega, by omega, by omega, by omega⟩
    · exact ⟨x, y+1, by omega, by omega, rfl, by omega, by omega, by omega, by omega, by omega⟩
    · exact ⟨x+1, y+1, by omega, by omega, rfl, by omega, by omega, by omega, by omega, by omega⟩
  · rintro ⟨cx, cy, hcx, hcy, rfl, hne, hb1, hb2, hb3, hb4⟩
    have hxc : cx + 1 = x ∨ cx = x ∨ cx = x + 1 := by omega
    have hyc : cy + 1 = y ∨ cy = y ∨ cy = y + 1 := by omega
    rcases hxc with hxc | hxc | hxc <;> rcases hyc with hyc | hyc | hyc
    · refine Or.inl ⟨by omega, Or.inl (Or.inl ⟨by omega, ?_⟩)⟩
      rw [show y - 1 = cy from by omega, show x - 1 = cx from by omega]
    · refine Or.inr (Or.inl ⟨by omega, ?_⟩)
      rw [show x - 1 = cx from by omega, hyc]
    · refine Or.inr (Or.inr (Or.inr ⟨by omega, Or.inl (Or.inl ⟨by omega, ?_⟩)⟩))
      rw [show y + 1 = cy from by omega, show x - 1 = cx from by omega]
    · refine Or.inl ⟨by omega, Or.inl (Or.inr ?_)⟩
      rw [show y - 1 = cy from by omega, hxc]
    · exact absurd ⟨hxc, hyc⟩ hne
    · refine Or.inr (Or.inr (Or.inr ⟨by omega, Or.inl (Or.inr ?_)⟩))
      rw [show y + 1 = cy from by omega, hxc]
    · refine Or.inl ⟨by omega, Or.inr ⟨by omega, ?_⟩⟩
      rw [show y - 1 = cy from by omega, show x + 1 = cx from by omega]
    · refine Or.inr (Or.inr (Or.inl ⟨by omega, ?_⟩))
      rw [show x + 1 = cx from by omega, hyc]
    · refine Or.inr (Or.inr (Or.inr ⟨by omega, Or.inr ⟨by omega, ?_⟩⟩))
      rw [show y + 1 = cy from by omega, show x + 1 = cx from by omega]

theorem adjRow_nodup (xlim ylim x y : Nat) (hx : x < xlim) (_hy : y < ylim) :
    (adjRow xlim ylim x y).Nodup := by
  unfold adjRow
  split_ifs with h1 h2 h3 h4 <;>
    (simp only [List.cons_append, List.nil_append, List.append_nil, List.singleton_append]
     simp only [List.nodup_cons, List.mem_cons, List.mem_singleton, List.not_mem_nil,
       or_false, List.nodup_nil, and_true, not_or, List.nodup_singleton, true_and]
     repeat' apply And.intro
     all_goals first
       | exact not_false
       | exact index_ne _ _ _ _ _ (by omega) (by omega) (by omega))

theorem adjRow_mem_lt (xlim ylim x y j : Nat) (hx : x < xlim) (hy : y < ylim)
    (hj : j ∈ adjRow xlim ylim x y) : j < xlim * ylim := by
  rcases (mem_adjRow xlim ylim x y hx hy j).mp hj with
    ⟨cx, cy, hcx, hcy, rfl, _, _, _, _, _⟩
  exact index_lt xlim ylim cx cy hcx hcy

theorem adjRow_not_self (xlim ylim x y : Nat) (hx : x < xlim) (hy : y < ylim) :
    y * xlim + x ∉ adjRow xlim ylim x y := by
  intro hj
  rcases (mem_adjRow xlim ylim x y hx hy _).mp hj with
    ⟨cx, cy, hcx, hcy, heq, hne, _, _, _, _⟩
  rcases (index_inj xlim x cx y cy hx hcx).mp heq with ⟨hy2, hx2⟩
  exact hne ⟨hx2.symm, hy2.symm⟩

theorem adjRow_symm (xlim ylim x y cx cy : Nat) (hx : x < xlim) (hy : y < ylim)
    (hcx : cx < xlim) (hcy : cy < ylim)
    (h : cy * xlim + cx ∈ adjRow xlim ylim x y) :
    y * xlim + x ∈ adjRow xlim ylim cx cy := by
  rcases (mem_adjRow xlim ylim x y hx hy _).mp h with
    ⟨dx, dy, hdx, hdy, heq, hne, b1, b2, b3, b4⟩
  rcases (index_inj xlim cx dx cy dy hcx hdx).mp heq with ⟨hyy, hxx⟩
  subst hyy
  subst hxx
  exact (mem_adjRow xlim ylim cx cy hcx hcy _).mpr
    ⟨x, y, hx, hy, rfl, by omega, by omega, by omega, by omega, by omega⟩

theorem create_adjacency_matrix_getD (xlim ylim i : Nat) (hi : i < ylim * xlim) :
    (create_adjacency_matrix xlim ylim).getD i [] =
      adjRow xlim ylim (i % xlim) (i / xlim) := by
  unfold create_adjacency_matrix
  rw [List.getD_eq_getElem?_getD, List.getElem?_map, List.getElem?_range hi]
  rfl

theorem create_adjacency_matrix_getD_cell (xlim ylim x y : Nat)
    (hx : x < xlim) (hy : y < ylim) :
    (create_adjacency_matrix xlim ylim).getD (y * xlim + x) [] = adjRow xlim ylim x y := by
  have hmc : xlim * ylim = ylim * xlim := Nat.mul_comm xlim ylim
  have hi : y * xlim + x < ylim * xlim := by
    have := index_lt xlim ylim x y hx hy
    omega
  rw [create_adjacency_matrix_getD xlim ylim _ hi, cell_mod xlim x y hx, cell_div xlim x y hx]

theorem length_adjRow (xlim ylim x y : Nat) :
    (adjRow xlim ylim x y).length =
      (if 1 ≤ y then (if 1 ≤ x then 1 else 0) + 1 + (if x+1 < xlim then 1 else 0) else 0) +
      ((if 1 ≤ x then 1 else 0) +
      ((if x+1 < xlim then 1 else 0) +
      (if y+1 < ylim then (if 1 ≤ x then 1 else 0) + 1 + (if x+1 < xlim then 1 else 0) else 0))) := by
  unfold adjRow
  split_ifs <;> simp [List.length_append]

theorem foldl_inv {α β : Type} (f : β → α → β) (P : β → Prop) (Q : α → Prop)
    (hstep : ∀ b a, P b → Q a → P (f b a)) :
    ∀ (l : List α) (b : β), (∀ a ∈ l, Q a) → P b → P (l.foldl f b) := by
  intro l
  induction l with
  | nil => intro b _ hb; exact hb
  | cons a l ih =>
      intro b hq hb
      exact ih (f b a) (fun a2 ha2 => hq a2 (List.mem_cons_of_mem a ha2))
        (hstep b a hb (hq a (List.mem_cons_self a l)))

theorem stepNeighbor_eq_seen (board : List Letter) (pnode : Trie) (pfx : BWord)
    (seen : List Nat) (acc : List PathState × Finset BWord) (cur_sq : Nat)
    (hseen : cur_sq ∈ seen) :
    stepNeighbor board pnode pfx seen acc cur_sq = acc := by
  unfold stepNeighbor
  rw [if_pos hseen]

theorem stepNeighbor_eq_prune (board : List Letter) (pnode : Trie) (pfx : BWord)
    (seen : List Nat) (acc : List PathState × Finset BWord) (cur_sq : Nat)
    (hseen : cur_sq ∉ seen) (hch : pnode.get_child (board.getD cur_sq 0) = none) :
    stepNeighbor board pnode pfx seen acc cur_sq = acc := by
  unfold stepNeighbor
  rw [if_neg hseen, hch]

theorem stepNeighbor_eq_word (board : List Letter) (pnode cur_node : Trie) (pfx : BWord)
    (seen : List Nat) (acc : List PathState × Finset BWord) (cur_sq : Nat)
    (hseen : cur_sq ∉ seen) (hch : pnode.get_child (board.getD cur_sq 0) = some cur_node)
    (hw : cur_node.is_word = true) :
    stepNeighbor board pnode pfx seen acc cur_sq =
      (acc.1 ++ [⟨cur_sq, pfx ++ [board.getD cur_sq 0], some cur_node, seen ++ [cur_sq]⟩],
       insert (rehydrate (pfx ++ [board.getD cur_sq 0])) acc.2) := by
  unfold stepNeighbor
  rw [if_neg hseen, hch]
  show (if cur_node.is_word = true then _ else _) = _
  rw [if_pos hw]

theorem stepNeighbor_eq_noword (board : List Letter) (pnode cur_node : Trie) (pfx : BWord)
    (seen : List Nat) (acc : List PathState × Finset BWord) (cur_sq : Nat)
    (hseen : cur_sq ∉ seen) (hch : pnode.get_child (board.getD cur_sq 0) = some cur_node)
    (hw : cur_node.is_word = false) :
    stepNeighbor board pnode pfx seen acc cur_sq =
      (acc.1 ++ [⟨cur_sq, pfx ++ [board.getD cur_sq 0], some cur_node, seen ++ [cur_sq]⟩],
       acc.2) := by
  unfold stepNeighbor
  rw [if_neg hseen, hch]
  show (if cur_node.is_word = true then _ else _) = _
  rw [if_neg (by rw [hw]; exact Bool.false_ne_true)]

theorem stepNeighbor_good (board : List Letter) (adjs : List (List Nat)) (t : Trie)
    (pnode : Trie) (pfx : BWord) (seen : List Nat) (psq : Nat)
    (hstate : GoodState board adjs t ⟨psq, pfx, some pnode, seen⟩)
    (acc : List PathState × Finset BWord) (cur_sq : Nat)
    (hacc : (∀ st ∈ acc.1, GoodState board adjs t st) ∧
      (∀ w ∈ acc.2, GoodWord board adjs t w))
    (hadj : cur_sq ∈ adjs.getD psq []) :
    (∀ st ∈ (stepNeighbor board pnode pfx seen acc cur_sq).1, GoodState board adjs t st) ∧
    (∀ w ∈ (stepNeighbor board pnode pfx seen acc cur_sq).2, GoodWord board adjs t w) := by
  obtain ⟨hne, hnodup, hchain, hpfx, hlast, hwalk⟩ := hstate
  by_cases hseen : cur_sq ∈ seen
  · rw [stepNeighbor_eq_seen board pnode pfx seen acc cur_sq hseen]
    exact hacc
  · cases hch : pnode.get_child (board.getD cur_sq 0) with
    | none =>
        rw [stepNeighbor_eq_prune board pnode pfx seen acc cur_sq hseen hch]
        exact hacc
    | some cur_node =>
        have hwalk2 : t.walk (pfx ++ [board.getD cur_sq 0]) = some cur_node := by
          rw [Trie.walk_append, hwalk pnode rfl]
          show pnode.walk [board.getD cur_sq 0] = some cur_node
          rw [Trie.walk_cons, hch]
          rfl
        have hmap : (seen ++ [cur_sq]).map (fun i => board.getD i 0) =
            pfx ++ [board.getD cur_sq 0] := by
          rw [List.map_append, ← hpfx]
          rfl
        have hstate2 : GoodState board adjs t
            ⟨cur_sq, pfx ++ [board.getD cur_sq 0], some cur_node, seen ++ [cur_sq]⟩ := by
          refine ⟨by simp, ?_, ?_, ?_, ?_, ?_⟩
          · rw [List.nodup_append]
            exact ⟨hnodup, List.nodup_singleton cur_sq,
              fun a ha hb => absurd (List.mem_singleton.mp hb ▸ ha) hseen⟩
          · rw [List.chain'_append]
            refine ⟨hchain, List.chain'_singleton cur_sq, ?_⟩
            intro a ha b hb
            rw [hlast] at ha
            have ha2 : psq = a := by simpa using ha
            have hb2 : cur_sq = b := by simpa using hb
            rw [← ha2, ← hb2]
            exact hadj
          · exact hmap.symm
          · simp
          · intro n hn
            injection hn with hn2
            rw [← hn2]
            exact hwalk2
        have hgw : cur_node.is_word = true →
            GoodWord board adjs t (rehydrate (pfx ++ [board.getD cur_sq 0])) := by
          intro hw
          refine ⟨seen ++ [cur_sq], by simp, hstate2.2.1, hstate2.2.2.1, ?_, ?_⟩
          · rw [hmap]
            unfold Trie.containsWord
            rw [hwalk2]
            exact hw
          · rw [hmap]
        cases hw : cur_node.is_word with
        | false =>
            rw [stepNeighbor_eq_noword board pnode cur_node pfx seen acc cur_sq hseen hch hw]
            constructor
            · intro st hst
              rcases List.mem_append.mp hst with h2 | h2
              · exact hacc.1 st h2
              · rw [List.mem_singleton.mp h2]
                exact hstate2
            · exact hacc.2
        | true =>
            rw [stepNeighbor_eq_word board pnode cur_node pfx seen acc cur_sq hseen hch hw]
            constructor
            · intro st hst
              rcases List.mem_append.mp hst with h2 | h2
              · exact hacc.1 st h2
              · rw [List.mem_singleton.mp h2]
                exact hstate2
            · intro w hw2
              rcases Finset.mem_insert.mp hw2 with h2 | h2
              · rw [h2]
                exact hgw hw
              · exact hacc.2 w h2

theorem stepState_good (board : List Letter) (adjs : List (List Nat)) (t : Trie)
    (pnode : Trie) (pfx : BWord) (seen : List Nat) (psq : Nat)
    (hstate : GoodState board adjs t ⟨psq, pfx, some pnode, seen⟩)
    (words : Finset BWord) (hwords : ∀ w ∈ words, GoodWord board adjs t w) :
    (∀ st ∈ (stepState board adjs psq pfx pnode seen words).1,
      GoodState board adjs t st) ∧
    (∀ w ∈ (stepState board adjs psq pfx pnode seen words).2,
      GoodWord board adjs t w) := by
  unfold stepState
  refine foldl_inv (stepNeighbor board pnode pfx seen)
    (fun acc => (∀ st ∈ acc.1, GoodState board adjs t st) ∧
      (∀ w ∈ acc.2, GoodWord board adjs t w))
    (fun c => c ∈ adjs.getD psq [])
    (fun b a hb ha => stepNeighbor_good board adjs t pnode pfx seen psq hstate b a hb ha)
    (adjs.getD psq []) ([], words) (fun a ha => ha) ⟨by simp, hwords⟩

theorem drainQueue_good (board : List Letter) (adjs : List (List Nat)) (t : Trie) :
    ∀ (fuel : Nat) (q : List PathState) (words res : Finset BWord),
      (∀ st ∈ q, GoodState board adjs t st) →
      (∀ w ∈ words, GoodWord board adjs t w) →
      drainQueue board adjs fuel q words = .ok res →
      ∀ w ∈ res, GoodWord board adjs t w := by
  intro fuel
  induction fuel with
  | zero =>
      intro q words res hq hw hok
      cases q with
      | nil =>
          simp only [drainQueue, SolveResult.ok.injEq] at hok
          rw [← hok]
          exact hw
      | cons st rest => simp [drainQueue] at hok
  | succ fuel ih =>
      intro q words res hq hw hok
      cases q with
      | nil =>
          simp only [drainQueue, SolveResult.ok.injEq] at hok
          rw [← hok]
          exact hw
      | cons st rest =>
          obtain ⟨sq, pfx, nd, seen⟩ := st
          cases nd with
          | none => simp [drainQueue] at hok
          | some pnode =>
              have hok2 : drainQueue board adjs fuel
                  (rest ++ (stepState board adjs sq pfx pnode seen words).1)
                  (stepState board adjs sq pfx pnode seen words).2 = .ok res := hok
              have hst := hq _ (List.mem_cons_self _ rest)
              have hstep := stepState_good board adjs t pnode pfx seen sq hst words hw
              refine ih _ _ res ?_ hstep.2 hok2
              intro st2 hst2
              rcases List.mem_append.mp hst2 with h2 | h2
              · exact hq st2 (List.mem_cons_of_mem _ h2)
              · exact hstep.1 st2 h2

theorem seed_good (board : List Letter) (adjs : List (List Nat)) (t : Trie) (i : Nat) :
    GoodState board adjs t
      ⟨i, [board.getD i 0], t.get_child (board.getD i 0), [i]⟩ := by
  refine ⟨by simp, by simp, by simp, by simp, by simp, ?_⟩
  intro n hn
  rw [Trie.walk_cons]
  have hn2 : t.get_child (board.getD i 0) = some n := hn
  rw [hn2]
  rfl

theorem solveCells_good (board : List Letter) (adjs : List (List Nat)) (t : Trie)
    (fuel : Nat) :
    ∀ (inits : List Nat) (words res : Finset BWord),
      (∀ w ∈ words, GoodWord board adjs t w) →
      solveCells board adjs t fuel inits words = .ok res →
      ∀ w ∈ res, GoodWord board adjs t w := by
  intro inits
  induction inits with
  | nil =>
      intro words res hw hok
      simp only [solveCells, SolveResult.ok.injEq] at hok
      rw [← hok]
      exact hw
  | cons i rest ih =>
      intro words res hw hok
      cases hdq : drainQueue board adjs fuel
          [⟨i, [board.getD i 0], t.get_child (board.getD i 0), [i]⟩] words with
      | ok words2 =>
          simp only [solveCells] at hok
          rw [hdq] at hok
          have hg := drainQueue_good board adjs t fuel _ words words2 ?_ hw hdq
          · exact ih words2 res hg hok
          · intro st hst
            rw [List.mem_singleton.mp hst]
            exact seed_good board adjs t i
      | errNotLoaded =>
          simp only [solveCells] at hok
          rw [hdq] at hok
          exact SolveResult.noConfusion hok
      | errInvalidBoard =>
          simp only [solveCells] at hok
          rw [hdq] at hok
          exact SolveResult.noConfusion hok
      | crash =>
          simp only [solveCells] at hok
          rw [hdq] at hok
          exact SolveResult.noConfusion hok
      | fuelOut =>
          simp only [solveCells] at hok
          rw [hdq] at hok
          exact SolveResult.noConfusion hok

theorem solve_found_good (slv : BoggleSolver) (t : Trie) (grid : List Letter)
    (found : Finset BWord) (ht : slv.trie = some t) (hok : slv.solve grid = .ok found) :
    ∀ w ∈ found, GoodWord grid slv.adjacency t w := by
  unfold BoggleSolver.solve at hok
  rw [ht] at hok
  simp only [] at hok
  split at hok
  · exact absurd hok (by simp)
  · exact solveCells_good grid slv.adjacency t slv.solveFuel _ ∅ found (by simp) hok

theorem Trie.walk_snoc (t cur : Trie) (p : BWord) (l : Letter) (c : Trie)
    (hw : t.walk p = some cur) (hc : cur.get_child l = some c) :
    t.walk (p ++ [l]) = some c := by
  rw [Trie.walk_append, hw]
  show cur.walk [l] = some c
  rw [Trie.walk_cons, hc]
  rfl

theorem filter_word_stored_length (minL maxL : Nat) (w w2 : BWord)
    (h : filter_word minL maxL w = some w2) : w2.length ≤ maxL := by
  rcases filter_word_some minL maxL w w2 h with ⟨h1, h2, (⟨r, hw, hw2⟩ | ⟨hw2, _⟩)⟩
  · subst hw2
    subst hw
    simp only [List.length_cons] at h2 ⊢
    omega
  · subst hw2
    omega

theorem create_dict_trie_walk_length (minL maxL : Nat) (ws : List BWord) (p : BWord)
    (n : Trie) (h : (create_dict_trie minL maxL ws).walk p = some n) :
    p.length ≤ maxL := by
  rw [create_dict_trie_eq_buildTrie] at h
  rcases Trie.walk_buildTrie_some _ p n h with hp | ⟨w, hw, r, hr⟩
  · subst hp
    simp
  · rcases List.mem_filterMap.mp hw with ⟨w0, hw0, hf⟩
    have hlen := filter_word_stored_length minL maxL w0 w hf
    have h2 : p.length + r.length = w.length := by
      rw [← hr]
      simp
    omega

theorem create_dict_trie_no_deep_children (minL maxL : Nat) (ws : List BWord) (p : BWord)
    (n : Trie) (h : (create_dict_trie minL maxL ws).walk p = some n)
    (hlen : p.length = maxL) (hch : n.has_children = true) : False := by
  rcases (Trie.has_children_iff n).mp hch with ⟨l, c, hc⟩
  have h2 : (create_dict_trie minL maxL ws).walk (p ++ [l]) = some c :=
    Trie.walk_snoc _ n p l c h hc
  have h3 := create_dict_trie_walk_length minL maxL ws (p ++ [l]) c h2
  simp only [List.length_append, List.length_cons, List.length_nil] at h3
  omega

theorem innerScan_cons_eq (maxL : Nat) (cur : Trie) (l : Letter) (rest : List Letter)
    (letters : BWord) (count : Nat) (found : Finset BWord) (hcnt : ¬ maxL ≤ count) :
    innerScan maxL cur (l :: rest) letters count found =
      match cur.get_child l with
      | none => some found
      | some c =>
          let found2 := if c.is_word = true then insert (letters ++ [l]) found else found
          if c.has_children = true then
            innerScan maxL c rest (letters ++ [l]) (count + 1) found2
          else some found2 := by
  conv_lhs => rw [innerScan]
  rw [if_neg hcnt]

theorem innerScan_isSome (maxL : Nat) (t : Trie)
    (hdepth : ∀ (p : BWord) (n : Trie), t.walk p = some n → p.length ≤ maxL)
    (hmax : 1 ≤ maxL) :
    ∀ (input : List Letter) (cur : Trie) (p : BWord) (letters : BWord) (count : Nat)
      (found : Finset BWord),
      t.walk p = some cur → p.length = count → (count = 0 ∨ cur.has_children = true) →
      (innerScan maxL cur input letters count found).isSome = true := by
  intro input
  induction input with
  | nil =>
      intro cur p letters count found hwalk hlen hcnt
      simp [innerScan]
  | cons l rest ih =>
      intro cur p letters count found hwalk hlen hcnt
      have hlt : count < maxL := by
        rcases hcnt with h0 | hch
        · omega
        · rcases (Trie.has_children_iff cur).mp hch with ⟨l2, c2, hc2⟩
          have h2 : t.walk (p ++ [l2]) = some c2 := Trie.walk_snoc t cur p l2 c2 hwalk hc2
          have h3 := hdepth (p ++ [l2]) c2 h2
          simp only [List.length_append, List.length_cons, List.length_nil] at h3
          omega
      rw [innerScan_cons_eq maxL cur l rest letters count found (by omega)]
      cases hch : cur.get_child l with
      | none => rfl
      | some c =>
          show ((if c.has_children = true then
              innerScan maxL c rest (letters ++ [l]) (count + 1)
                (if c.is_word = true then insert (letters ++ [l]) found else found)
            else some (if c.is_word = true then insert (letters ++ [l]) found
              else found)).isSome) = true
          cases hhc : c.has_children with
          | false =>
              rw [if_neg Bool.false_ne_true]
              rfl
          | true =>
              rw [if_pos rfl]
              exact ih c (p ++ [l]) (letters ++ [l]) (count + 1) _
                (Trie.walk_snoc t cur p l c hwalk hch)
                (by simp [hlen]) (Or.inr hhc)

theorem scanStarts_isSome (t : Trie) (maxL : Nat) (s : List Letter)
    (hscan : ∀ (input : List Letter) (found : Finset BWord),
      (innerScan maxL t input [] 0 found).isSome = true) :
    ∀ (starts : List Nat) (found : Finset BWord),
      (scanStarts t maxL s starts found).isSome = true := by
  intro starts
  induction starts with
  | nil => intro found; rfl
  | cons st rest ih =>
      intro found
      unfold scanStarts
      cases hin : innerScan maxL t (s.drop st) [] 0 found with
      | none =>
          have h2 := hscan (s.drop st) found
          rw [hin] at h2
          simp at h2
      | some found2 => exact ih found2

/-- C1: the claim states that a grid cell whose letter has no child at the
trie root is pruned at seeding time, contributes nothing, and never causes
solve to crash.  The code violates this: line 106 of bogglesolver.py seeds
the tuple with `trie.get_child(c)` and no None check, and line 109 then
evaluates `pnode.get_child` on the popped state, an AttributeError when that
child was None.  On the engine `slvC` (dictionary containing only "cab", so
the root has a child only for 'c') and the valid 2x2 grid "cabx", the model
of solve reaches the crash outcome. -/
theorem solve_crashes_when_root_child_missing :
    slvC.solve gridC = SolveResult.crash := by decide

/-- C2: solve fails with the dictionary-not-loaded error outcome when called
before the trie is built, and with the invalid-board error outcome when the
grid length differs from board_size; in both situations it does not return an
ok result set; the engine state is unchanged by any solve call, so a
subsequent call (with a corrected grid, or after loading the dictionary)
behaves exactly as a fresh call. -/
theorem solve_error_outcomes (slv : BoggleSolver) (grid grid2 : List Letter)
    (ws : List BWord) :
    (slv.trie = none → slv.solve grid = SolveResult.errNotLoaded) ∧
    (∀ t, slv.trie = some t → grid.length ≠ slv.board_size →
      slv.solve grid = SolveResult.errInvalidBoard) ∧
    (∀ s, slv.trie = none → slv.solve grid ≠ SolveResult.ok s) ∧
    (∀ t s, slv.trie = some t → grid.length ≠ slv.board_size →
      slv.solve grid ≠ SolveResult.ok s) ∧
    ((slv.solveCall grid).2 = slv) ∧
    ((slv.solveCall grid).2.solve grid2 = slv.solve grid2) ∧
    (((slv.solveCall grid).2.load_dictionary ws).solve grid2 =
      (slv.load_dictionary ws).solve grid2) := by
  refine ⟨?_, ?_, ?_, ?_, rfl, rfl, rfl⟩
  · intro h
    unfold BoggleSolver.solve
    rw [h]
  · intro t ht hlen
    unfold BoggleSolver.solve
    rw [ht]
    show (if grid.length ≠ slv.board_size then _ else _) = _
    rw [if_pos hlen]
  · intro s h hok
    unfold BoggleSolver.solve at hok
    rw [h] at hok
    exact SolveResult.noConfusion hok
  · intro t s ht hlen hok
    unfold BoggleSolver.solve at hok
    rw [ht] at hok
    have hok2 : (if grid.length ≠ slv.board_size then SolveResult.errInvalidBoard
        else solveCells grid slv.adjacency t slv.solveFuel
          (List.range slv.adjacency.length) ∅) = SolveResult.ok s := hok
    rw [if_pos hlen] at hok2
    exact SolveResult.noConfusion hok2

/-- C2 witness: the unloaded 4x4 engine answers the not-loaded error, the
loaded 4x4 engine answers the invalid-board error on a length-15 grid, and
the engine state is preserved by the call. -/
theorem solve_error_outcomes_witness :
    slvNone.solve grid15 = SolveResult.errNotLoaded ∧
    slv4.solve grid15 = SolveResult.errInvalidBoard ∧
    (slv4.solveCall grid15).2 = slv4 := by
  refine ⟨(solve_error_outcomes slvNone grid15 grid15 wordsA).1 rfl, ?_, ?_⟩
  · exact (solve_error_outcomes slv4 grid15 grid15 wordsA).2.1
      (create_dict_trie 3 16 wordsA) rfl (by decide)
  · exact (solve_error_outcomes slv4 grid15 grid15 wordsA).2.2.2.2.1

/-- C3: with a dictionary built by the filtering policy using the engine's
min_letters and max_letters bounds, every word in an ok result of solve has
length between min_letters and max_letters, where the "qu" rehydration
contributes the extra character for a word matched from a 'q' cell. -/
theorem solve_result_length_bounds (slv : BoggleSolver) (ws : List BWord)
    (grid : List Letter) (found : Finset BWord)
    (ht : slv.trie = some (create_dict_trie slv.min_letters slv.max_letters ws))
    (hok : slv.solve grid = SolveResult.ok found) :
    ∀ w ∈ found, slv.min_letters ≤ w.length ∧ w.length ≤ slv.max_letters := by
  intro w hw
  obtain ⟨p, hp, hnodup, hchain, hcont, hreh⟩ :=
    solve_found_good slv _ grid found ht hok w hw
  rcases (containsWord_create_dict_trie _ _ ws _).mp hcont with ⟨w0, hw0, hf⟩
  rcases filter_word_some _ _ w0 _ hf with ⟨h1, h2, (⟨r, hwq, hsq⟩ | ⟨hsw, hhead⟩)⟩
  · rw [hreh, hsq, rehydrate_q]
    rw [hwq] at h1 h2
    simp only [List.length_cons] at h1 h2 ⊢
    omega
  · rw [hreh, rehydrate_of_head_ne _ hhead, hsw]
    omega

/-- C3 witness: the "aaa" dictionary engine on the grid "aaaa" returns
exactly the word "aaa", whose length 3 is within the bounds 3 and 4. -/
theorem solve_result_length_bounds_witness :
    slvA.solve gridA = SolveResult.ok {[0, 0, 0]} ∧
    slvA.min_letters ≤ ([0, 0, 0] : BWord).length ∧
    ([0, 0, 0] : BWord).length ≤ slvA.max_letters := by
  refine ⟨by decide, ?_, ?_⟩
  · exact (solve_result_length_bounds slvA wordsA gridA {[0, 0, 0]} rfl (by decide)
      [0, 0, 0] (by decide)).1
  · exact (solve_result_length_bounds slvA wordsA gridA {[0, 0, 0]} rfl (by decide)
      [0, 0, 0] (by decide)).2

/-- C4: the dictionary builder rejects every word starting with 'q' whose
second letter is not 'u' and stores accepted q-words with the leading "qu"
collapsed to the single letter 'q'; and every word in an ok result of solve
that begins with 'q' has 'u' as its second letter (the rehydration step). -/
theorem qu_policy (slv : BoggleSolver) (t : Trie) (grid : List Letter)
    (found : Finset BWord) :
    (∀ (minL maxL : Nat) (c : Letter) (r : BWord), c ≠ uLetter →
      filter_word minL maxL (qLetter :: c :: r) = none) ∧
    (∀ (minL maxL : Nat) (r w2 : BWord),
      filter_word minL maxL (qLetter :: uLetter :: r) = some w2 →
      w2 = qLetter :: r) ∧
    (slv.trie = some t → slv.solve grid = SolveResult.ok found →
      ∀ w ∈ found, ∀ r, w = qLetter :: r → ∃ r2, r = uLetter :: r2) := by
  refine ⟨fun minL maxL c r hc => filter_word_none_qnotu minL maxL c r hc,
    fun minL maxL r w2 h => filter_word_qu minL maxL r w2 h, ?_⟩
  intro ht hok w hw r hwr
  obtain ⟨p, hp, hnodup, hchain, hcont, hreh⟩ :=
    solve_found_good slv t grid found ht hok w hw
  rw [hreh] at hwr
  exact rehydrate_head_q _ r hwr

/-- C4 witness: "qad" (second letter not 'u') is rejected, "quad" is stored
as "qad" with the "qu" collapsed, and in the q-word engine's result on grid
"qadd" the word starting with 'q' is "quad", whose second letter is 'u'. -/
theorem qu_policy_witness :
    filter_word 3 4 (qLetter :: (0 : Letter) :: [3]) = none ∧
    ((16 : Letter) :: [0, 3] : BWord) = qLetter :: [0, 3] ∧
    (∃ r2, ([20, 0, 3] : BWord) = uLetter :: r2) := by
  have h := qu_policy slvQ (create_dict_trie 3 4 wordsQ) gridQ {[0, 3, 16], [16, 20, 0, 3]}
  refine ⟨h.1 3 4 0 [3] (by decide), ?_, ?_⟩
  · exact h.2.1 3 4 [0, 3] ((16 : Letter) :: [0, 3]) (by decide)
  · exact h.2.2 rfl (by rfl) [16, 20, 0, 3] (by decide) [20, 0, 3] rfl

/-- C5: after inserting w, walking the trie along w from the root ends at a
node with the word flag set; and in a trie built from a list of inserted
words, walking along any sequence that was never inserted either dead-ends
on a missing child or ends at a node whose flag is false. -/
theorem trie_roundtrip (w : BWord) (t : Trie) (ws : List BWord) (seq : BWord)
    (hseq : seq ∉ ws) :
    (∃ n, (t.insert w).walk w = some n ∧ n.is_word = true) ∧
    ((buildTrie ws).walk seq = none ∨
      ∃ n, (buildTrie ws).walk seq = some n ∧ n.is_word = false) := by
  refine ⟨Trie.walk_insert_self w t, ?_⟩
  have hc : ¬ ((buildTrie ws).containsWord seq = true) :=
    fun h => hseq ((Trie.containsWord_buildTrie ws seq).mp h)
  cases hwk : (buildTrie ws).walk seq with
  | none => exact Or.inl rfl
  | some n =>
      refine Or.inr ⟨n, rfl, ?_⟩
      have h2 : (buildTrie ws).containsWord seq = n.is_word := by
        unfold Trie.containsWord
        rw [hwk]
      cases hb : n.is_word with
      | false => rfl
      | true =>
          rw [hb] at h2
          exact absurd h2 hc

/-- C5 witness: insert "cab" into an empty trie and walk it back; the
sequence "aa" was never inserted into the "aaa" trie and its walk does not
end at a word node. -/
theorem trie_roundtrip_witness :
    ([0, 0] : BWord) ∉ wordsA ∧
    ((∃ n, (Trie.empty.insert [2, 0, 1]).walk [2, 0, 1] = some n ∧ n.is_word = true) ∧
     ((buildTrie wordsA).walk [0, 0] = none ∨
       ∃ n, (buildTrie wordsA).walk [0, 0] = some n ∧ n.is_word = false)) :=
  ⟨by decide, trie_roundtrip [2, 0, 1] Trie.empty wordsA [0, 0] (by decide)⟩

/-- C6: for every width and height greater than 1, the adjacency table is a
symmetric relation, and the neighbor counts are exactly 3 for corner cells,
5 for non-corner edge cells, and 8 for interior cells. -/
theorem adjacency_symmetric_and_degrees (xlim ylim : Nat)
    (hx : 1 < xlim) (hy : 1 < ylim) :
    (∀ i j, i < xlim * ylim → j < xlim * ylim →
      (j ∈ (create_adjacency_matrix xlim ylim).getD i [] ↔
       i ∈ (create_adjacency_matrix xlim ylim).getD j [])) ∧
    (∀ x y, x < xlim → y < ylim →
      ((create_adjacency_matrix xlim ylim).getD (y * xlim + x) []).length =
        if (x = 0 ∨ x = xlim - 1) ∧ (y = 0 ∨ y = ylim - 1) then 3
        else if x = 0 ∨ x = xlim - 1 ∨ y = 0 ∨ y = ylim - 1 then 5
        else 8) := by
  have hmc : xlim * ylim = ylim * xlim := Nat.mul_comm xlim ylim
  have key : ∀ i j, i < xlim * ylim → j < xlim * ylim →
      j ∈ (create_adjacency_matrix xlim ylim).getD i [] →
      i ∈ (create_adjacency_matrix xlim ylim).getD j [] := by
    intro i j hi hj hmem
    have hx0 : 0 < xlim := by omega
    have hxi : i % xlim < xlim := Nat.mod_lt i hx0
    have hyi : i / xlim < ylim := by
      rw [Nat.div_lt_iff_lt_mul hx0]
      omega
    have hieq : (i / xlim) * xlim + (i % xlim) = i := by
      rw [Nat.mul_comm]
      exact Nat.div_add_mod i xlim
    rw [create_adjacency_matrix_getD xlim ylim i (by omega)] at hmem
    rcases (mem_adjRow xlim ylim (i % xlim) (i / xlim) hxi hyi j).mp hmem with
      ⟨cx, cy, hcx, hcy, hj2, hne, b1, b2, b3, b4⟩
    subst hj2
    have hsym := adjRow_symm xlim ylim (i % xlim) (i / xlim) cx cy hxi hyi hcx hcy hmem
    rw [create_adjacency_matrix_getD xlim ylim (cy * xlim + cx)
      (by have := index_lt xlim ylim cx cy hcx hcy; omega)]
    rw [cell_mod xlim cx cy hcx, cell_div xlim cx cy hcx]
    rw [← hieq]
    exact hsym
  constructor
  · intro i j hi hj
    exact ⟨key i j hi hj, key j i hj hi⟩
  · intro x y hxx hyy
    rw [create_adjacency_matrix_getD_cell xlim ylim x y hxx hyy, length_adjRow]
    split_ifs <;> omega

/-- C6 witness: the 3x3 table is symmetric and has the 3/5/8 degrees. -/
theorem adjacency_symmetric_and_degrees_witness :
    (∀ i j, i < 3 * 3 → j < 3 * 3 →
      (j ∈ (create_adjacency_matrix 3 3).getD i [] ↔
       i ∈ (create_adjacency_matrix 3 3).getD j [])) ∧
    (∀ x y, x < 3 → y < 3 →
      ((create_adjacency_matrix 3 3).getD (y * 3 + x) []).length =
        if (x = 0 ∨ x = 3 - 1) ∧ (y = 0 ∨ y = 3 - 1) then 3
        else if x = 0 ∨ x = 3 - 1 ∨ y = 0 ∨ y = 3 - 1 then 5
        else 8) :=
  adjacency_symmetric_and_degrees 3 3 (by decide) (by decide)

/-- C7: every word in an ok result of solve is spelled by a path of grid
cells that is duplicate-free and whose consecutive cells are adjacent under
the adjacency table (the traversal skips neighbors already in the visited
list before extending a path). -/
theorem solve_words_on_simple_adjacent_paths (slv : BoggleSolver) (t : Trie)
    (grid : List Letter) (found : Finset BWord)
    (ht : slv.trie = some t) (hok : slv.solve grid = SolveResult.ok found) :
    ∀ w ∈ found, ∃ p : List Nat, p.Nodup ∧
      p.Chain' (fun a b => b ∈ slv.adjacency.getD a []) ∧
      w = rehydrate (p.map (fun i => grid.getD i 0)) := by
  intro w hw
  obtain ⟨p, hp, hnodup, hchain, hcont, hreh⟩ :=
    solve_found_good slv t grid found ht hok w hw
  exact ⟨p, hnodup, hchain, hreh⟩

/-- C7 witness: the word "aaa" found on grid "aaaa" comes from a
duplicate-free path of pairwise-adjacent cells. -/
theorem solve_words_on_simple_adjacent_paths_witness :
    ∃ p : List Nat, p.Nodup ∧
      p.Chain' (fun a b => b ∈ slvA.adjacency.getD a []) ∧
      ([0, 0, 0] : BWord) = rehydrate (p.map (fun i => gridA.getD i 0)) :=
  solve_words_on_simple_adjacent_paths slvA (create_dict_trie 3 4 wordsA) gridA
    {[0, 0, 0]} rfl (by decide) [0, 0, 0] (by decide)

/-- C8: Trie.insert is idempotent: inserting the same word twice yields a
tree identical to inserting it once. -/
theorem insert_idempotent (t : Trie) (w : BWord) :
    (t.insert w).insert w = t.insert w :=
  Trie.insert_insert_self w t

/-- C9: with the trie built by the dictionary builder (so every stored word
has at most max_letters letters and no trie node sits deeper than
max_letters), find_substrings never writes its letters buffer out of bounds:
it returns a set normally on every input string. -/
theorem find_substrings_total (slv : BoggleSolver) (ws : List BWord) (s : List Letter)
    (ht : slv.trie = some (create_dict_trie slv.min_letters slv.max_letters ws))
    (hmax : 1 ≤ slv.max_letters) :
    ∃ found, slv.find_substrings s = some found := by
  have hdepth : ∀ (p : BWord) (n : Trie),
      (create_dict_trie slv.min_letters slv.max_letters ws).walk p = some n →
      p.length ≤ slv.max_letters :=
    fun p n h => create_dict_trie_walk_length _ _ ws p n h
  have hscan : ∀ (input : List Letter) (found : Finset BWord),
      (innerScan slv.max_letters (create_dict_trie slv.min_letters slv.max_letters ws)
        input [] 0 found).isSome = true :=
    fun input found =>
      innerScan_isSome slv.max_letters _ hdepth hmax input _ [] [] 0 found
        rfl rfl (Or.inl rfl)
  have hss := scanStarts_isSome (create_dict_trie slv.min_letters slv.max_letters ws)
    slv.max_letters s hscan (List.range s.length) ∅
  unfold BoggleSolver.find_substrings
  rw [ht]
  exact Option.isSome_iff_exists.mp hss

/-- C9 witness: the "aaa" engine scans the string "aaaaa" and returns a set
normally. -/
theorem find_substrings_total_witness :
    ∃ found, slvA.find_substrings [0, 0, 0, 0, 0] = some found :=
  find_substrings_total slvA wordsA [0, 0, 0, 0, 0] rfl (by decide)

/-- C10: every adjacency table row is well-formed: duplicate-free, without
the cell itself, and with every entry a valid cell index. -/
theorem adjacency_rows_wellformed (xlim ylim i : Nat) (hi : i < xlim * ylim) :
    ((create_adjacency_matrix xlim ylim).getD i []).Nodup ∧
    i ∉ (create_adjacency_matrix xlim ylim).getD i [] ∧
    (∀ j ∈ (create_adjacency_matrix xlim ylim).getD i [], j < xlim * ylim) := by
  have hx0 : 0 < xlim := by
    rcases Nat.eq_zero_or_pos xlim with h | h
    · rw [h] at hi
      simp at hi
    · exact h
  have hmc : xlim * ylim = ylim * xlim := Nat.mul_comm xlim ylim
  have hxi : i % xlim < xlim := Nat.mod_lt i hx0
  have hyi : i / xlim < ylim := by
    rw [Nat.div_lt_iff_lt_mul hx0]
    omega
  have hieq : (i / xlim) * xlim + (i % xlim) = i := by
    rw [Nat.mul_comm]
    exact Nat.div_add_mod i xlim
  rw [create_adjacency_matrix_getD xlim ylim i (by omega)]
  refine ⟨adjRow_nodup xlim ylim _ _ hxi hyi, ?_, ?_⟩
  · have h2 := adjRow_not_self xlim ylim (i % xlim) (i / xlim) hxi hyi
    rwa [hieq] at h2
  · intro j hj
    have h3 := adjRow_mem_lt xlim ylim (i % xlim) (i / xlim) j hxi hyi hj
    omega

/-- C10 witness: row 5 of the 3x3 table is well-formed. -/
theorem adjacency_rows_wellformed_witness :
    ((create_adjacency_matrix 3 3).getD 5 []).Nodup ∧
    5 ∉ (create_adjacency_matrix 3 3).getD 5 [] ∧
    (∀ j ∈ (create_adjacency_matrix 3 3).getD 5 [], j < 3 * 3) :=
  adjacency_rows_wellformed 3 3 5 (by decide)
